import Mathlib

/-!
Verification of the simphox FDFD core: a shallow embedding of the
grid/operator-construction layer (`simphox/grid.py`), the FDFD solve and
mode-solve layer (`simphox/fdfd.py`), the Yee-averaging and curl utilities
(`simphox/utils.py`), and the mode post-processing layer
(`simphox/device.py`), together with theorems settling behavioural claims
about them.

Machine floating point is modelled by exact real/complex arithmetic; numpy
array operations are modelled by functions on `Fin`-indexed types; scipy
sparse matrices are modelled by Mathlib matrices; and the external
eigensolver (`scipy.sparse.linalg.eigs`) is treated as a black box whose
output the post-processing code receives as input.
-/

namespace Simphox

noncomputable section

open scoped Matrix

/-- Bloch boundary factor `exp(1j * bloch_phase)` for one axis
(grid.py, `SimGrid.__init__`). -/
def blochFactor (phi : ℝ) : ℂ := Complex.exp (Complex.I * phi)

/-- Per-axis forward finite-difference factor
`sp.diags([-1, 1, b], [0, 1, -n + 1], shape=(n, n))` when `n > 1`, else the
scalar `0` (grid.py, `SimGrid.deriv`, forward branch): `-1` on the diagonal,
`+1` on the superdiagonal, and the Bloch factor `b` wrapped to the corner
entry `(n-1, 0)`. -/
def dfAxis (n : ℕ) (b : ℂ) : Matrix (Fin n) (Fin n) ℂ :=
  if 1 < n then
    Matrix.of fun i j =>
      (if i = j then -1 else 0) + (if (j : ℕ) = (i : ℕ) + 1 then 1 else 0) +
        (if (i : ℕ) = n - 1 ∧ (j : ℕ) = 0 then b else 0)
  else 0

/-- Per-axis backward finite-difference factor
`sp.diags([1, -1, -conj b], [0, -1, n - 1], shape=(n, n))` when `n > 1`,
else `0` (grid.py, `SimGrid.deriv`, backward branch): `+1` on the diagonal,
`-1` on the subdiagonal, and `-conj b` wrapped to the corner entry
`(0, n-1)`. -/
def dbAxis (n : ℕ) (b : ℂ) : Matrix (Fin n) (Fin n) ℂ :=
  if 1 < n then
    Matrix.of fun i j =>
      (if i = j then 1 else 0) + (if (i : ℕ) = (j : ℕ) + 1 then -1 else 0) +
        (if (i : ℕ) = 0 ∧ (j : ℕ) = n - 1 then -(starRingEnd ℂ) b else 0)
  else 0

/-- Dispatch on the `back` flag of `SimGrid.deriv`. -/
def derivAxis (back : Bool) (n : ℕ) (b : ℂ) : Matrix (Fin n) (Fin n) ℂ :=
  if back then dbAxis n b else dfAxis n b

/-- `B` is entrywise the negated conjugate transpose of `A`. -/
def NegAdjEnt {m : Type*} (A B : Matrix m m ℂ) : Prop :=
  ∀ i j, B i j = -(starRingEnd ℂ) (A j i)

/-- `D` is entrywise the conjugate transpose of `C`. -/
def SelfAdjPair {m : Type*} (C D : Matrix m m ℂ) : Prop :=
  ∀ i j, D i j = (starRingEnd ℂ) (C j i)

theorem selfAdjPair_one {m : Type*} [DecidableEq m] :
    SelfAdjPair (1 : Matrix m m ℂ) 1 := by
  intro i j
  rcases eq_or_ne i j with h | h
  · subst h; simp
  · simp [Matrix.one_apply, h, Ne.symm h]

theorem dbAxis_negAdj_dfAxis (n : ℕ) (b : ℂ) :
    NegAdjEnt (dfAxis n b) (dbAxis n b) := by
  intro i j
  unfold dbAxis dfAxis
  by_cases h : 1 < n
  · simp only [if_pos h, Matrix.of_apply, map_add, map_neg, map_one, map_zero,
      apply_ite (starRingEnd ℂ), Fin.ext_iff]
    split_ifs <;> first | (exfalso; omega) | ring
  · simp [if_neg h]

theorem negAdjEnt_kron_right {m p : Type*} [DecidableEq p]
    {A B : Matrix m m ℂ} {C D : Matrix p p ℂ}
    (hAB : NegAdjEnt A B) (hCD : SelfAdjPair C D) :
    NegAdjEnt (Matrix.kroneckerMap (· * ·) A C) (Matrix.kroneckerMap (· * ·) B D) := by
  rintro ⟨i, x⟩ ⟨j, y⟩
  simp only [Matrix.kroneckerMap_apply, hAB i j, hCD x y, map_mul]
  ring

theorem negAdjEnt_kron_left {m p : Type*} [DecidableEq m]
    {C D : Matrix m m ℂ} {A B : Matrix p p ℂ}
    (hCD : SelfAdjPair C D) (hAB : NegAdjEnt A B) :
    NegAdjEnt (Matrix.kroneckerMap (· * ·) C A) (Matrix.kroneckerMap (· * ·) D B) := by
  rintro ⟨x, i⟩ ⟨y, j⟩
  simp only [Matrix.kroneckerMap_apply, hAB i j, hCD x y, map_mul]
  ring

theorem selfAdjPair_kron {m p : Type*}
    {C D : Matrix m m ℂ} {E F : Matrix p p ℂ}
    (h1 : SelfAdjPair C D) (h2 : SelfAdjPair E F) :
    SelfAdjPair (Matrix.kroneckerMap (· * ·) C E) (Matrix.kroneckerMap (· * ·) D F) := by
  rintro ⟨x, i⟩ ⟨y, j⟩
  simp only [Matrix.kroneckerMap_apply, h1 x y, h2 i j, map_mul]

theorem negAdjEnt_constDiag_mul {m : Type*} [Fintype m] [DecidableEq m]
    {A B : Matrix m m ℂ} (c : ℝ) (hAB : NegAdjEnt A B) :
    NegAdjEnt (Matrix.diagonal (fun _ => ((c : ℂ))⁻¹) * A)
      (Matrix.diagonal (fun _ => ((c : ℂ))⁻¹) * B) := by
  intro i j
  simp only [Matrix.diagonal_mul, hAB i j, map_mul, map_inv₀, Complex.conj_ofReal]
  ring

theorem negAdjEnt_iff {m : Type*} {A B : Matrix m m ℂ} (h : NegAdjEnt A B) :
    B = -Aᴴ := by
  ext i j
  simp [h i j, Matrix.conjTranspose_apply]

/-- Full-grid derivative operator along axis 0 (grid.py, `SimGrid.deriv`):
`sp.diags(1 / dx.ravel()) @ sp.kron(d[0], sp.eye(s[1] * s[2]))` where `dx` is
the per-cell size mesh for that axis.  The identity factor is indexed by
`Fin s1 × Fin s2`, the row-major-isomorphic form of `eye(s1 * s2)`. -/
def deriv0 (s0 s1 s2 : ℕ) (dxv : Fin s0 × Fin s1 × Fin s2 → ℝ) (b : ℂ) (back : Bool) :
    Matrix (Fin s0 × Fin s1 × Fin s2) (Fin s0 × Fin s1 × Fin s2) ℂ :=
  Matrix.diagonal (fun p => ((dxv p : ℝ) : ℂ)⁻¹) *
    Matrix.kroneckerMap (· * ·) (derivAxis back s0 b)
      (1 : Matrix (Fin s1 × Fin s2) (Fin s1 × Fin s2) ℂ)

/-- Full-grid derivative operator along axis 1 (grid.py, `SimGrid.deriv`):
`sp.diags(1 / dx.ravel()) @ sp.kron(sp.kron(sp.eye(s[0]), d[1]), sp.eye(s[2]))`. -/
def deriv1 (s0 s1 s2 : ℕ) (dxv : (Fin s0 × Fin s1) × Fin s2 → ℝ) (b : ℂ) (back : Bool) :
    Matrix ((Fin s0 × Fin s1) × Fin s2) ((Fin s0 × Fin s1) × Fin s2) ℂ :=
  Matrix.diagonal (fun p => ((dxv p : ℝ) : ℂ)⁻¹) *
    Matrix.kroneckerMap (· * ·)
      (Matrix.kroneckerMap (· * ·) (1 : Matrix (Fin s0) (Fin s0) ℂ) (derivAxis back s1 b))
      (1 : Matrix (Fin s2) (Fin s2) ℂ)

/-- Full-grid derivative operator along axis 2 (grid.py, `SimGrid.deriv`):
`sp.diags(1 / dx.ravel()) @ sp.kron(sp.eye(s[0] * s[1]), d[2])`. -/
def deriv2 (s0 s1 s2 : ℕ) (dxv : (Fin s0 × Fin s1) × Fin s2 → ℝ) (b : ℂ) (back : Bool) :
    Matrix ((Fin s0 × Fin s1) × Fin s2) ((Fin s0 × Fin s1) × Fin s2) ℂ :=
  Matrix.diagonal (fun p => ((dxv p : ℝ) : ℂ)⁻¹) *
    Matrix.kroneckerMap (· * ·) (1 : Matrix (Fin s0 × Fin s1) (Fin s0 × Fin s1) ℂ)
      (derivAxis back s2 b)

/-- **C1.** For every grid configuration with no PML (so every cell of the
per-axis size mesh `dx` equals the constant grid spacing of that axis) and
Bloch phase zero, the backward derivative operators returned by
`SimGrid.deriv(back=True)` are component-wise the negated conjugate
transposes of the forward operators from `SimGrid.deriv(back=False)`:
`db[i] = -df[i]^H` on each of the three axes. -/
theorem deriv_backward_eq_neg_adjoint_forward (s0 s1 s2 : ℕ) (spacing : Fin 3 → ℝ) :
    deriv0 s0 s1 s2 (fun _ => spacing 0) (blochFactor 0) true =
        -(deriv0 s0 s1 s2 (fun _ => spacing 0) (blochFactor 0) false)ᴴ ∧
      deriv1 s0 s1 s2 (fun _ => spacing 1) (blochFactor 0) true =
        -(deriv1 s0 s1 s2 (fun _ => spacing 1) (blochFactor 0) false)ᴴ ∧
      deriv2 s0 s1 s2 (fun _ => spacing 2) (blochFactor 0) true =
        -(deriv2 s0 s1 s2 (fun _ => spacing 2) (blochFactor 0) false)ᴴ := by
  refine ⟨?_, ?_, ?_⟩
  · exact negAdjEnt_iff <| negAdjEnt_constDiag_mul (spacing 0) <|
      negAdjEnt_kron_right (by simpa [derivAxis] using dbAxis_negAdj_dfAxis s0 (blochFactor 0))
        selfAdjPair_one
  · exact negAdjEnt_iff <| negAdjEnt_constDiag_mul (spacing 1) <|
      negAdjEnt_kron_right
        (negAdjEnt_kron_left selfAdjPair_one
          (by simpa [derivAxis] using dbAxis_negAdj_dfAxis s1 (blochFactor 0)))
        selfAdjPair_one
  · exact negAdjEnt_iff <| negAdjEnt_constDiag_mul (spacing 2) <|
      negAdjEnt_kron_left selfAdjPair_one
        (by simpa [derivAxis] using dbAxis_negAdj_dfAxis s2 (blochFactor 0))

/-! ### Fields on the Yee grid and the discrete curls (grid.py / utils.py) -/

/-- A cell index of a (zero-padded to rank 3) grid of shape `(s0, s1, s2)`. -/
abbrev GridCell (s0 s1 s2 : ℕ) := Fin s0 × Fin s1 × Fin s2

/-- Cyclic successor of a coordinate, the index map of `np.roll(·, -1, axis)`. -/
def finCycSucc {n : ℕ} (i : Fin n) : Fin n :=
  ⟨((i : ℕ) + 1) % n, Nat.mod_lt _ (Nat.lt_of_le_of_lt (Nat.zero_le _) i.isLt)⟩

/-- Cyclic predecessor of a coordinate, the index map of `np.roll(·, 1, axis)`. -/
def finCycPred {n : ℕ} (i : Fin n) : Fin n :=
  ⟨((i : ℕ) + (n - 1)) % n, Nat.mod_lt _ (Nat.lt_of_le_of_lt (Nat.zero_le _) i.isLt)⟩

/-- Advance a grid cell by one (cyclically) along axis `d`. -/
def shiftUp {s0 s1 s2 : ℕ} (d : Fin 3) (p : GridCell s0 s1 s2) : GridCell s0 s1 s2 :=
  if d = 0 then (finCycSucc p.1, p.2.1, p.2.2)
  else if d = 1 then (p.1, finCycSucc p.2.1, p.2.2)
  else (p.1, p.2.1, finCycSucc p.2.2)

/-- Retreat a grid cell by one (cyclically) along axis `d`. -/
def shiftDown {s0 s1 s2 : ℕ} (d : Fin 3) (p : GridCell s0 s1 s2) : GridCell s0 s1 s2 :=
  if d = 0 then (finCycPred p.1, p.2.1, p.2.2)
  else if d = 1 then (p.1, finCycPred p.2.1, p.2.2)
  else (p.1, p.2.1, finCycPred p.2.2)

/-- Forward finite difference on a scalar grid:
`de(e_, d) = (np.roll(e_, -1, axis=d) - e_) / dxes_e[d]`
(grid.py, `SimGrid.curl_e`); `dxe` is the (possibly PML-stretched) E-mesh. -/
def deF {s0 s1 s2 : ℕ} (dxe : Fin 3 → GridCell s0 s1 s2 → ℂ) (d : Fin 3)
    (g : GridCell s0 s1 s2 → ℂ) : GridCell s0 s1 s2 → ℂ :=
  fun p => (g (shiftUp d p) - g p) / dxe d p

/-- Backward finite difference on a scalar grid:
`dh(h_, d) = (h_ - np.roll(h_, 1, axis=d)) / dxes_h[d]`
(grid.py, `SimGrid.curl_h`); `dxh` is the (possibly PML-stretched) H-mesh. -/
def dhF {s0 s1 s2 : ℕ} (dxh : Fin 3 → GridCell s0 s1 s2 → ℂ) (d : Fin 3)
    (g : GridCell s0 s1 s2 → ℂ) : GridCell s0 s1 s2 → ℂ :=
  fun p => (g p - g (shiftDown d p)) / dxh d p

/-- Modelled from the spec: the helper `curl(f, df, beta)` that grid.py
imports from `simphox.utils` is absent from the sources; spec §4.1
("computes the three Cartesian components of the discrete curl, optionally
adding an analytic `iβ` term along the propagation axis") together with the
in-repo `utils.curl_fn` fixes it as below. -/
def curlF {s0 s1 s2 : ℕ}
    (df : Fin 3 → (GridCell s0 s1 s2 → ℂ) → GridCell s0 s1 s2 → ℂ)
    (beta : Option ℂ) (f : Fin 3 → GridCell s0 s1 s2 → ℂ) :
    Fin 3 → GridCell s0 s1 s2 → ℂ :=
  match beta with
  | some b => fun c p =>
      if c = 0 then df 1 (f 2) p + Complex.I * b * f 1 p
      else if c = 1 then -(Complex.I * b * f 0 p) - df 0 (f 2) p
      else df 0 (f 1) p - df 1 (f 0) p
  | none => fun c p =>
      if c = 0 then df 1 (f 2) p - df 2 (f 1) p
      else if c = 1 then df 2 (f 0) p - df 0 (f 2) p
      else df 0 (f 1) p - df 1 (f 0) p

/-- `SimGrid.curl_e`: discrete curl of the E field. -/
def curlE {s0 s1 s2 : ℕ} (dxe : Fin 3 → GridCell s0 s1 s2 → ℂ) (beta : Option ℂ)
    (e : Fin 3 → GridCell s0 s1 s2 → ℂ) : Fin 3 → GridCell s0 s1 s2 → ℂ :=
  curlF (deF dxe) beta e

/-- `SimGrid.curl_h`: discrete curl of the H field. -/
def curlH {s0 s1 s2 : ℕ} (dxh : Fin 3 → GridCell s0 s1 s2 → ℂ) (beta : Option ℂ)
    (h : Fin 3 → GridCell s0 s1 s2 → ℂ) : Fin 3 → GridCell s0 s1 s2 → ℂ :=
  curlF (dhF dxh) beta h

/-- `FDFD.e2h`: `h = curl_e(e, beta) / (1j * k0)` (fdfd.py). -/
def e2h {s0 s1 s2 : ℕ} (dxe : Fin 3 → GridCell s0 s1 s2 → ℂ) (k0 : ℝ) (beta : Option ℂ)
    (e : Fin 3 → GridCell s0 s1 s2 → ℂ) : Fin 3 → GridCell s0 s1 s2 → ℂ :=
  fun c p => curlE dxe beta e c p / (Complex.I * k0)

/-- `FDFD.h2e`: `e = curl_h(h, beta) / (1j * k0 * eps_t)` (fdfd.py). -/
def h2e {s0 s1 s2 : ℕ} (dxh : Fin 3 → GridCell s0 s1 s2 → ℂ)
    (epsT : Fin 3 → GridCell s0 s1 s2 → ℝ) (k0 : ℝ) (beta : Option ℂ)
    (h : Fin 3 → GridCell s0 s1 s2 → ℂ) : Fin 3 → GridCell s0 s1 s2 → ℂ :=
  fun c p => curlH dxh beta h c p / (Complex.I * k0 * epsT c p)

theorem dhF_scale {s0 s1 s2 : ℕ} (dxh : Fin 3 → GridCell s0 s1 s2 → ℂ) (d : Fin 3)
    (a : ℂ) (g : GridCell s0 s1 s2 → ℂ) (p : GridCell s0 s1 s2) :
    dhF dxh d (fun q => a * g q) p = a * dhF dxh d g p := by
  simp only [dhF]
  rw [← mul_sub, mul_div_assoc]

theorem curlH_scale {s0 s1 s2 : ℕ} (dxh : Fin 3 → GridCell s0 s1 s2 → ℂ)
    (beta : Option ℂ) (a : ℂ) (h : Fin 3 → GridCell s0 s1 s2 → ℂ) (c : Fin 3)
    (p : GridCell s0 s1 s2) :
    curlH dxh beta (fun c q => a * h c q) c p = a * curlH dxh beta h c p := by
  cases beta <;>
    · simp only [curlH, curlF, dhF_scale]
      split_ifs <;> ring

theorem div_I_div_helper (z k e : ℂ) :
    (z / (Complex.I * k)) / (Complex.I * k * e) = -z / (k ^ 2 * e) := by
  rw [div_div,
    show Complex.I * k * (Complex.I * k * e) = Complex.I ^ 2 * (k ^ 2 * e) by ring,
    Complex.I_sq]
  rw [show (-1 : ℂ) * (k ^ 2 * e) = -(k ^ 2 * e) by ring, div_neg, neg_div]

/-- **C2, amended.** The round trip `h2e(e2h(e))` is exactly the operator
identity `-curl_h(curl_e(e)) / (k0² eps_t)`; in particular it is not
approximately the identity on arbitrary smooth fields `e`, even up to the
null space removed by the curl operator. -/
theorem h2e_e2h_roundTrip {s0 s1 s2 : ℕ} (dxe dxh : Fin 3 → GridCell s0 s1 s2 → ℂ)
    (epsT : Fin 3 → GridCell s0 s1 s2 → ℝ) (k0 : ℝ) (beta : Option ℂ)
    (e : Fin 3 → GridCell s0 s1 s2 → ℂ) :
    h2e dxh epsT k0 beta (e2h dxe k0 beta e) =
      fun c p => -(curlH dxh beta (curlE dxe beta e) c p) / ((k0 : ℂ) ^ 2 * epsT c p) := by
  funext c p
  have he : e2h dxe k0 beta e =
      fun c q => (Complex.I * (k0 : ℂ))⁻¹ * curlE dxe beta e c q := by
    funext c q
    rw [e2h, div_eq_inv_mul]
  rw [h2e, he]
  rw [curlH_scale, inv_mul_eq_div, div_I_div_helper]

/-- A concrete smooth test field on a uniform 1D grid of two cells
(`shape=(2,)`, `spacing=1`, `eps=1`, `wavelength=2π` so `k0=1`, no PML):
`e = (0, (1, 0), 0)`. -/
def exE : Fin 3 → GridCell 2 1 1 → ℂ := fun c p => if c = 1 ∧ p.1 = 0 then 1 else 0

/-- The round trip `h2e(e2h(exE))` on that grid. -/
def exRound : Fin 3 → GridCell 2 1 1 → ℂ :=
  h2e (fun _ _ => 1) (fun _ _ => 1) 1 none (e2h (fun _ _ => 1) 1 none exE)

/-- **C2, counterexample.** On the concrete grid of `exE`, the round trip
`h2e(e2h(e))` returns `-2` where `e` is `1` (an O(1) discrepancy, far beyond
any numerical tolerance), and the discrepancy `h2e(e2h(e)) - e` has a
nonzero discrete curl (entry `5`), so it does not lie in the null space
removed by the curl operator: the round trip is not the identity up to that
null space. -/
theorem roundTrip_cex :
    exRound 1 (0, 0, 0) = -2 ∧ exE 1 (0, 0, 0) = 1 ∧
      curlE (fun _ _ => 1) none (fun c p => exRound c p - exE c p) 2 (0, 0, 0) = 5 := by
  refine ⟨?_, ?_, ?_⟩
  · simp +decide [exRound, h2e, e2h, curlH, curlE, curlF, dhF, deF, shiftUp, shiftDown,
      finCycSucc, finCycPred, exE]
    norm_num [Complex.ext_iff]
  · simp +decide [exE]
  · simp +decide [exRound, h2e, e2h, curlH, curlE, curlF, dhF, deF, shiftUp, shiftDown,
      finCycSucc, finCycPred, exE]
    norm_num [Complex.ext_iff]

/-! ### `FDFD.wgm_solve` post-processing (fdfd.py): sorting and normalization.
The external eigensolver `scipy.sparse.linalg.eigs` is a black box; its
output `(eigvals, eigvecs)` is the input of the modelled post-processing. -/

/-- Principal complex square root — the semantics of `np.sqrt` on a complex
array: `exp(log(z)/2)` with the principal branch of `log`, and `0` at `0`. -/
def csqrt (z : ℂ) : ℂ := if z = 0 then 0 else Complex.exp (Complex.log z / (2 : ℝ))

theorem csqrt_re_nonneg (z : ℂ) : 0 ≤ (csqrt z).re := by
  rw [csqrt]
  split_ifs with h
  · simp
  · rw [Complex.exp_re]
    refine mul_nonneg (Real.exp_pos _).le (Real.cos_nonneg_of_mem_Icc ⟨?_, ?_⟩)
    · rw [Complex.div_ofReal_im, Complex.log_im]
      nlinarith [Complex.neg_pi_lt_arg z, Real.pi_pos]
    · rw [Complex.div_ofReal_im, Complex.log_im]
      nlinarith [Complex.arg_le_pi z]

theorem csqrt_sq {w : ℂ} (hw : 0 < w.re) : csqrt (w ^ 2) = w := by
  have hw0 : w ≠ 0 := by
    intro h
    rw [h] at hw
    simp at hw
  have hsq : w ^ 2 ≠ 0 := pow_ne_zero _ hw0
  have husq : csqrt (w ^ 2) ^ 2 = w ^ 2 := by
    rw [csqrt, if_neg hsq, ← Complex.exp_nat_mul]
    rw [show ((2 : ℕ) : ℂ) * (Complex.log (w ^ 2) / ((2 : ℝ) : ℂ)) =
        Complex.log (w ^ 2) by push_cast; ring]
    exact Complex.exp_log hsq
  have hsplit : (csqrt (w ^ 2) - w) * (csqrt (w ^ 2) + w) = 0 := by
    linear_combination husq
  rcases mul_eq_zero.mp hsplit with h | h
  · exact sub_eq_zero.mp h
  · exfalso
    have heq : csqrt (w ^ 2) = -w := eq_neg_of_add_eq_zero_left h
    have := csqrt_re_nonneg (w ^ 2)
    rw [heq, Complex.neg_re] at this
    linarith

theorem csqrt_ofReal_nonneg {r : ℝ} (hr : 0 ≤ r) :
    csqrt (r : ℂ) = (Real.sqrt r : ℂ) := by
  rcases eq_or_lt_of_le hr with h | h
  · rw [← h]
    simp [csqrt]
  · have hw : ((Real.sqrt r : ℂ)) ^ 2 = (r : ℂ) := by
      rw [← Complex.ofReal_pow, Real.sq_sqrt hr]
    rw [← hw]
    exact csqrt_sq (by simpa using Real.sqrt_pos.mpr h)

/-- `np.argsort(np.sqrt(eigvals.real))[::-1]` in `FDFD.wgm_solve`: the index
list sorted ascending by the real square root of the eigenvalue's real part
(`argsort` modelled as a list sort), then reversed. -/
def wgmSortedInds (k : ℕ) (eigvals : Fin k → ℂ) : List (Fin k) :=
  (List.insertionSort
    (fun i j => Real.sqrt (eigvals i).re ≤ Real.sqrt (eigvals j).re)
    (List.finRange k)).reverse

/-- The propagation constants returned by `FDFD.wgm_solve`:
`np.sqrt(eigvals[inds_sorted])` — the principal complex square roots of the
reordered eigenvalues. -/
def wgmBetas (k : ℕ) (eigvals : Fin k → ℂ) : List ℂ :=
  (wgmSortedInds k eigvals).map fun i => csqrt (eigvals i)

theorem csqrt_four : csqrt (4 : ℂ) = 2 := by
  rw [show ((4 : ℂ)) = (((4 : ℝ) : ℂ)) by norm_num, csqrt_ofReal_nonneg (by norm_num)]
  rw [show (4 : ℝ) = 2 ^ 2 by norm_num, Real.sqrt_sq (by norm_num)]
  norm_num

theorem csqrt_eighteen_I : csqrt (18 * Complex.I) = 3 + 3 * Complex.I := by
  have hsq : (3 + 3 * Complex.I) ^ 2 = 18 * Complex.I := by
    have h := Complex.I_sq
    ring_nf
    linear_combination (9 : ℂ) * h
  rw [← hsq]
  exact csqrt_sq (by simp)

/-- **C3, counterexample.** The eigensolver is an external black box; if it
returns the eigenvalue pair `(4, 18i)` (complex eigenvalues arise whenever
PML makes the mode operator non-Hermitian), `wgm_solve` sorts by
`np.sqrt(eigvals.real)`, yielding betas `(2, 3+3i)` whose real parts `2 < 3`
are *increasing*: the returned betas are not sorted by non-increasing real
part. -/
theorem wgmBetas_cex :
    wgmBetas 2 ![4, 18 * Complex.I] = [2, 3 + 3 * Complex.I] ∧
      ¬ ((wgmBetas 2 ![4, 18 * Complex.I]).Sorted fun x y => y.re ≤ x.re) := by
  have hinds : wgmSortedInds 2 ![4, 18 * Complex.I] = [0, 1] := by
    have hkey : ¬ (Real.sqrt ((![4, 18 * Complex.I] : Fin 2 → ℂ) 0).re ≤
        Real.sqrt ((![4, 18 * Complex.I] : Fin 2 → ℂ) 1).re) := by
      simp [Complex.mul_re]
    rw [wgmSortedInds]
    rw [show (List.finRange 2 : List (Fin 2)) = [0, 1] by decide]
    simp [List.insertionSort, List.orderedInsert, hkey]
  have hbetas : wgmBetas 2 ![4, 18 * Complex.I] = [2, 3 + 3 * Complex.I] := by
    rw [wgmBetas, hinds]
    simp [csqrt_four, csqrt_eighteen_I]
  refine ⟨hbetas, ?_⟩
  rw [hbetas]
  simp [List.Sorted, List.pairwise_cons, Complex.add_re]
  norm_num

/-- **C3, amended.** When every eigenvalue handed back by the eigensolver is
a nonnegative real (the lossless, guided-mode regime), the betas returned by
`wgm_solve` are sorted by non-increasing real part; in general the sort key
is `√(Re λ)`, not `Re √λ`. -/
theorem wgmBetas_sorted_of_real_nonneg (k : ℕ) (eigvals : Fin k → ℂ)
    (hyp : ∀ i, (eigvals i).im = 0 ∧ 0 ≤ (eigvals i).re) :
    ((wgmBetas k eigvals).map Complex.re).Sorted fun a b => b ≤ a := by
  have hre : ∀ i, (csqrt (eigvals i)).re = Real.sqrt (eigvals i).re := by
    intro i
    have h1 : eigvals i = (((eigvals i).re : ℝ) : ℂ) := by
      apply Complex.ext
      · simp
      · simp [(hyp i).1]
    calc (csqrt (eigvals i)).re = (csqrt (((eigvals i).re : ℝ) : ℂ)).re := by rw [← h1]
      _ = Real.sqrt (eigvals i).re := by rw [csqrt_ofReal_nonneg (hyp i).2]; simp
  have hIsTotal : IsTotal (Fin k)
      (fun i j => Real.sqrt (eigvals i).re ≤ Real.sqrt (eigvals j).re) :=
    ⟨fun a b => le_total _ _⟩
  have hIsTrans : IsTrans (Fin k)
      (fun i j => Real.sqrt (eigvals i).re ≤ Real.sqrt (eigvals j).re) :=
    ⟨fun _ _ _ hab hbc => le_trans hab hbc⟩
  have hsorted := List.sorted_insertionSort
    (fun i j => Real.sqrt (eigvals i).re ≤ Real.sqrt (eigvals j).re)
    (List.finRange k)
  have hrev : (wgmSortedInds k eigvals).Pairwise
      fun i j => Real.sqrt (eigvals j).re ≤ Real.sqrt (eigvals i).re := by
    rw [wgmSortedInds, List.pairwise_reverse]
    exact hsorted
  rw [wgmBetas, List.map_map]
  rw [List.Sorted, List.pairwise_map]
  exact hrev.imp fun {i j} h => by
    simpa only [Function.comp, hre i, hre j] using h

/-- Witness for `wgmBetas_sorted_of_real_nonneg` at the concrete
eigenvalue pair `(4, 1)`. -/
theorem wgmBetas_sorted_witness :
    (∀ i : Fin 2, ((![4, 1] : Fin 2 → ℂ) i).im = 0 ∧ 0 ≤ ((![4, 1] : Fin 2 → ℂ) i).re) ∧
      ((wgmBetas 2 ![4, 1]).map Complex.re).Sorted fun a b => b ≤ a :=
  ⟨by intro i; fin_cases i <;> norm_num,
    wgmBetas_sorted_of_real_nonneg 2 ![4, 1] (by intro i; fin_cases i <;> norm_num)⟩

/-- The per-mode phase factor `np.exp(-1j * np.angle(h0))` from the
complex-dtype branch of `FDFD.wgm_solve` (`h0` the first grid cell). -/
def phaseFactor (h0 : ℂ) : ℂ := Complex.exp (-Complex.I * Complex.arg h0)

/-- The complex-dtype normalization `h *= np.exp(-1j * np.angle(h[:1, :]))`
in `FDFD.wgm_solve`: every entry of a mode column is scaled by the phase
factor of that column's first entry. -/
def normalizeModesC (R k : ℕ) (h : Fin (R + 1) → Fin k → ℂ) :
    Fin (R + 1) → Fin k → ℂ :=
  fun r m => h r m * phaseFactor (h 0 m)

/-- The real-dtype normalization `h *= np.sign(h[:1, :])` in
`FDFD.wgm_solve`. -/
def normalizeModesR (R k : ℕ) (h : Fin (R + 1) → Fin k → ℝ) :
    Fin (R + 1) → Fin k → ℝ :=
  fun r m => h r m * Real.sign (h 0 m)

theorem mul_phaseFactor_eq_abs (z : ℂ) :
    z * phaseFactor z = (Complex.abs z : ℂ) := by
  rcases eq_or_ne z 0 with h | h
  · simp [h]
  · rw [phaseFactor]
    set t := z.arg with ht
    nth_rewrite 1 [← Complex.abs_mul_exp_arg_mul_I z]
    rw [← ht, mul_assoc, ← Complex.exp_add,
      show (t : ℂ) * Complex.I + -Complex.I * (t : ℂ) = 0 by ring,
      Complex.exp_zero, mul_one]

/-- **C4.** After the phase/sign normalization in `FDFD.wgm_solve`, the
first grid cell of every returned mode has phase exactly `0` when the grid
dtype is complex, and non-negative sign when the grid dtype is real. -/
theorem wgm_first_cell_normalized (R k : ℕ)
    (hC : Fin (R + 1) → Fin k → ℂ) (hR : Fin (R + 1) → Fin k → ℝ) (m : Fin k) :
    (normalizeModesC R k hC 0 m).arg = 0 ∧ 0 ≤ normalizeModesR R k hR 0 m := by
  constructor
  · rw [normalizeModesC, mul_phaseFactor_eq_abs]
    exact Complex.arg_ofReal_of_nonneg (Complex.abs.nonneg _)
  · rw [normalizeModesR]
    rcases lt_trichotomy (hR 0 m) 0 with h | h | h
    · rw [Real.sign_of_neg h]
      nlinarith
    · rw [h]
      simp
    · rw [Real.sign_of_pos h]
      nlinarith

/-! ### `FDFD.solve` dispatch and the `wgm` / PML configuration guards -/

/-- `FDFD.solve` (fdfd.py): `b = k0 * src.flatten()`; a full-vector solve
when `b.size == n*3`, a z-only solve with the two other field components
zero-filled when `b.size == n`, and a `ValueError` otherwise.  The external
sparse solvers are abstract parameters. -/
def fdfdSolve (n : ℕ) (src : List ℂ) (k0 : ℂ)
    (solverFull solverZ : List ℂ → List ℂ) : Except String (List ℂ) :=
  let b := src.map fun x => k0 * x
  if b.length = n * 3 then Except.ok (solverFull b)
  else if b.length = n then
    Except.ok (List.replicate n 0 ++ (List.replicate n 0 ++ solverZ b))
  else Except.error "Expected src.size == n*3 or n."

/-- **C5.** `FDFD.solve` raises the shape-mismatch `ValueError` if and only
if the source size is neither `n` nor `3n`; in the error case the result
carries no field data. -/
theorem solve_shape_mismatch (n : ℕ) (src : List ℂ) (k0 : ℂ)
    (solverFull solverZ : List ℂ → List ℂ) :
    (∃ msg, fdfdSolve n src k0 solverFull solverZ = Except.error msg) ↔
      src.length ≠ n ∧ src.length ≠ 3 * n := by
  rw [fdfdSolve]
  simp only [List.length_map]
  split_ifs with h1 h2 <;> simp <;> omega

/-- The dimensionality guard of the `FDFD.wgm` property (fdfd.py):
`if not self.ndim <= 2: raise AttributeError("Grid dimension must be 1 or 2")`. -/
def wgmGuard (ndim : ℕ) : Except String Unit :=
  if ndim ≤ 2 then Except.ok () else Except.error "Grid dimension must be 1 or 2"

/-- **C6.** Accessing the waveguide-mode operator `wgm` on a 3-dimensional
grid raises the configuration error, while on a 1- or 2-dimensional grid
the dimensionality check passes. -/
theorem wgm_dim_guard :
    wgmGuard 3 = Except.error "Grid dimension must be 1 or 2" ∧
      wgmGuard 1 = Except.ok () ∧ wgmGuard 2 = Except.ok () :=
  ⟨rfl, rfl, rfl⟩

/-- The PML thickness check in `SimGrid.__init__` (grid.py): construction
raises iff `np.any(pml_shape <= 3) or np.any(pml_shape >= shape // 2)`
(note the floor division `//`). -/
def pmlRaises (shape pml : List ℕ) : Bool :=
  (pml.any fun t => t ≤ 3) || ((pml.zip shape).any fun ts => ts.2 / 2 ≤ ts.1)

/-- **C7, counterexample.** For `shape=(9,)` and PML thickness `4`, the
spec's bound `3 < t < shape/2` holds (`3 < 4 < 4.5`), yet `SimGrid.__init__`
raises, because the code compares against the floor `shape // 2 = 4`. -/
theorem pml_bound_cex :
    pmlRaises [9] [4] = true ∧ (3 < 4 ∧ (4 : ℝ) < 9 / 2) := by
  refine ⟨by decide, by norm_num, by norm_num⟩

/-- **C7, amended.** `SimGrid.__init__` with a PML raises the configuration
error iff on some axis the thickness `t` fails `3 < t < shape[axis] // 2`
with *floor* division, i.e. iff `t ≤ 3` or `shape[axis] // 2 ≤ t`. -/
theorem pml_check_iff (shape pml : List ℕ) (hlen : pml.length = shape.length) :
    pmlRaises shape pml = true ↔
      ∃ ax : ℕ, ∃ hp : ax < pml.length, ∃ hs : ax < shape.length,
        pml.get ⟨ax, hp⟩ ≤ 3 ∨ shape.get ⟨ax, hs⟩ / 2 ≤ pml.get ⟨ax, hp⟩ := by
  rw [pmlRaises, Bool.or_eq_true, List.any_eq_true, List.any_eq_true]
  constructor
  · rintro (⟨t, ht, hle⟩ | ⟨ts, hts, hle⟩)
    · obtain ⟨⟨ax, hax⟩, rfl⟩ := List.mem_iff_get.mp ht
      exact ⟨ax, hax, hlen ▸ hax, Or.inl (by simpa using hle)⟩
    · obtain ⟨⟨ax, hax⟩, rfl⟩ := List.mem_iff_get.mp hts
      have haxp : ax < pml.length := by
        have := hax
        rw [List.length_zip] at this
        omega
      have haxs : ax < shape.length := by
        have := hax
        rw [List.length_zip] at this
        omega
      refine ⟨ax, haxp, haxs, Or.inr ?_⟩
      have hz : (pml.zip shape).get ⟨ax, hax⟩ =
          (pml.get ⟨ax, haxp⟩, shape.get ⟨ax, haxs⟩) := by
        simp [List.getElem_zip]
      rw [hz] at hle
      simpa using hle
  · rintro ⟨ax, hp, hs, hcase | hcase⟩
    · exact Or.inl ⟨pml.get ⟨ax, hp⟩, List.get_mem _ _ _, by simpa using hcase⟩
    · refine Or.inr ?_
      have hzl : ax < (pml.zip shape).length := by
        rw [List.length_zip]
        omega
      refine ⟨(pml.zip shape).get ⟨ax, hzl⟩, List.get_mem _ _ _, ?_⟩
      have hz : (pml.zip shape).get ⟨ax, hzl⟩ =
          (pml.get ⟨ax, hp⟩, shape.get ⟨ax, hs⟩) := by
        simp [List.getElem_zip]
      rw [hz]
      simpa using hcase

/-- Witness for `pml_check_iff` at `shape=(10,)`, `pml=(4,)`. -/
theorem pml_check_iff_witness :
    ([4] : List ℕ).length = ([10] : List ℕ).length ∧
      (pmlRaises [10] [4] = true ↔
        ∃ ax : ℕ, ∃ hp : ax < ([4] : List ℕ).length,
          ∃ hs : ax < ([10] : List ℕ).length,
            ([4] : List ℕ).get ⟨ax, hp⟩ ≤ 3 ∨
              ([10] : List ℕ).get ⟨ax, hs⟩ / 2 ≤ ([4] : List ℕ).get ⟨ax, hp⟩) :=
  ⟨rfl, pml_check_iff [10] [4] rfl⟩

/-! ### `SimGrid.eps_t` caching (grid.py `@property @lru_cache`) -/

/-- `np.roll(v, s)` on a 1D array: entry `i` reads entry `(i - s) mod n`. -/
def rollR {n : ℕ} (s : ℤ) (v : Fin n → ℝ) : Fin n → ℝ := fun i =>
  v ⟨(((i : ℕ) : ℤ) - s).emod (n : ℤ) |>.toNat, by
    have hn : 0 < n := Nat.lt_of_le_of_lt (Nat.zero_le _) i.isLt
    have hn2 : (0 : ℤ) < (n : ℤ) := by exact_mod_cast hn
    have h1 : 0 ≤ (((i : ℕ) : ℤ) - s).emod (n : ℤ) := Int.emod_nonneg _ (by omega)
    have h2 : (((i : ℕ) : ℤ) - s).emod (n : ℤ) < (n : ℤ) := Int.emod_lt_of_pos _ hn2
    omega⟩

/-- The 1D branch of `utils.yee_avg`:
`p = (params + np.roll(params, shift) + np.roll(params, -shift)) / 3`,
stacked identically for the three field components. -/
def yeeAvg1d (n : ℕ) (shift : ℤ) (params : Fin n → ℝ) : Fin 3 → Fin n → ℝ :=
  fun _ i => (params i + rollR shift params i + rollR (-shift) params i) / 3

/-- A `SimGrid` (1D, `yee_avg=1`) restricted to the state that the cached
`eps_t` property reads: the `eps` array and the `lru_cache` slot that
`@property @lru_cache` keeps for `eps_t` (keyed on the instance, hence a
single slot that survives `eps` mutation). -/
structure CachedGrid (n : ℕ) where
  eps : Fin n → ℝ
  epsTCache : Option (Fin 3 → Fin n → ℝ)

/-- Reading `grid.eps_t`: return the cache if present, else compute
`yee_avg(eps, shift=1)` and fill the cache (the `lru_cache` behaviour). -/
def epsTRead {n : ℕ} (g : CachedGrid n) : (Fin 3 → Fin n → ℝ) × CachedGrid n :=
  match g.epsTCache with
  | some v => (v, g)
  | none => (yeeAvg1d n 1 g.eps, ⟨g.eps, some (yeeAvg1d n 1 g.eps)⟩)

/-- Mutating `grid.eps` (as `ModeDevice.solve` does with
`self.fdfd.eps = eps`): the `lru_cache` slot is *not* cleared. -/
def setEps {n : ℕ} (g : CachedGrid n) (e : Fin n → ℝ) : CachedGrid n :=
  ⟨e, g.epsTCache⟩

/-- The two-cell grid trace exhibiting the stale cache: start with
`eps = 1`, read `eps_t`, overwrite `eps` with `2`, read `eps_t` again. -/
def staleTrace : (Fin 3 → Fin 2 → ℝ) × CachedGrid 2 :=
  epsTRead (setEps (epsTRead (⟨fun _ => 1, none⟩ : CachedGrid 2)).2 fun _ => 2)

/-- **C8.** `eps_t` is cached with `@property @lru_cache()`, so after `eps`
is mutated the next `eps_t` read returns the value computed from the *old*
`eps` (all entries `1`), not the Yee average of the current `eps` (all
entries `2`): the cache is never invalidated, contradicting the documented
invariant that `eps_t` is purely a function of the current `eps`. -/
theorem epsT_stale_after_mutation :
    (staleTrace.1 0 0 = 1 ∧ yeeAvg1d 2 1 (staleTrace.2.eps) 0 0 = 2) ∧
      staleTrace.1 ≠ yeeAvg1d 2 1 (staleTrace.2.eps) := by
  have h1 : staleTrace.1 0 0 = 1 := by
    simp [staleTrace, epsTRead, setEps, yeeAvg1d, rollR]
    norm_num
  have h2 : yeeAvg1d 2 1 (staleTrace.2.eps) 0 0 = 2 := by
    simp [staleTrace, epsTRead, setEps, yeeAvg1d, rollR]
    norm_num
  refine ⟨⟨h1, h2⟩, fun hcontra => ?_⟩
  rw [hcontra] at h1
  rw [h1] at h2
  norm_num at h2

/-! ### `Modes.__init__` snapshot semantics (device.py) -/

/-- A heap of numpy arrays, addressed by reference id. -/
def ArrayHeap := ℕ → ℕ → ℝ

/-- The observable state of a `Modes` object (device.py):
`self.fdfd = copy.deepcopy(fdfd)` puts a fresh reference in `fdfdEpsRef`;
`self.eps = fdfd.eps` stores the *live* array reference in `epsRef`;
`self.betas = betas.real` stores a value. -/
structure ModesObj where
  fdfdEpsRef : ℕ
  epsRef : ℕ
  betas : List ℝ

/-- `Modes.__init__(betas, modes, fdfd)`: deep-copy the grid's `eps` into a
fresh reference, alias `self.eps` to the live reference, store betas by
value. -/
def modesInit (h : ArrayHeap) (liveEpsRef : ℕ) (betas : List ℝ) (fresh : ℕ) :
    ModesObj × ArrayHeap :=
  (⟨fresh, liveEpsRef, betas⟩, fun r => if r = fresh then h liveEpsRef else h r)

/-- In-place mutation of the live grid's `eps` array (spec §3: the `eps`
array "may be mutated in place by callers ... between solves"). -/
def mutateEps (h : ArrayHeap) (liveEpsRef : ℕ) (newArr : ℕ → ℝ) : ArrayHeap :=
  fun r => if r = liveEpsRef then newArr else h r

/-- The `Modes.eps` attribute, read from the heap. -/
def modesEps (h : ArrayHeap) (m : ModesObj) : ℕ → ℝ := h m.epsRef

/-- The deep-copied grid's `eps` (`Modes.fdfd.eps`), through which every
derived accessor (`h`, `e`, `sz`, `te_ratios`, `s_matrix`) reads the
permittivity. -/
def modesSnapshotEps (h : ArrayHeap) (m : ModesObj) : ℕ → ℝ := h m.fdfdEpsRef

/-- A concrete solve-then-mutate trace: uniform heap of `1`s, live `eps` at
reference `0`, deep copy allocated at reference `1`, then the live array is
mutated in place to all `2`s. -/
def modesCexInit : ModesObj × ArrayHeap := modesInit (fun _ _ => 1) 0 [] 1

/-- The heap after the in-place mutation of the live `eps`. -/
def modesCexMutated : ArrayHeap := mutateEps modesCexInit.2 0 fun _ => 2

/-- **C9, counterexample.** `Modes.__init__` aliases `self.eps` to the live
grid's array (`self.eps = fdfd.eps`), so an in-place mutation of the live
`eps` changes the `eps` observable of the `Modes` object from `1` to `2`:
not all state observable through the `Modes` object is unchanged. -/
theorem modes_eps_alias_cex :
    modesEps modesCexMutated modesCexInit.1 0 = 2 ∧
      modesEps modesCexInit.2 modesCexInit.1 0 = 1 := by
  constructor
  · simp [modesEps, modesCexMutated, modesCexInit, modesInit, mutateEps]
  · simp [modesEps, modesCexInit, modesInit]

/-- **C9, amended.** After a solve, mutating the live grid's `eps` in place
leaves the deep-copied grid state of the `Modes` object — hence `betas`,
`modes`, and every accessor derived through `self.fdfd` — unchanged; the
stored `eps` attribute, however, aliases the live array and follows the
mutation. -/
theorem modes_snapshot_immutable (h : ArrayHeap) (liveEpsRef : ℕ) (betas : List ℝ)
    (fresh : ℕ) (newArr : ℕ → ℝ) (hfresh : fresh ≠ liveEpsRef) :
    modesSnapshotEps
        (mutateEps (modesInit h liveEpsRef betas fresh).2 liveEpsRef newArr)
        (modesInit h liveEpsRef betas fresh).1 =
      modesSnapshotEps (modesInit h liveEpsRef betas fresh).2
        (modesInit h liveEpsRef betas fresh).1 ∧
      (modesInit h liveEpsRef betas fresh).1.betas = betas ∧
      modesEps (mutateEps (modesInit h liveEpsRef betas fresh).2 liveEpsRef newArr)
        (modesInit h liveEpsRef betas fresh).1 = newArr := by
  refine ⟨?_, rfl, ?_⟩
  · funext x
    simp [modesSnapshotEps, modesInit, mutateEps, hfresh]
  · funext x
    simp [modesEps, modesInit, mutateEps]

/-- Witness for `modes_snapshot_immutable` at a concrete heap and
references `live = 0`, `fresh = 1`. -/
theorem modes_snapshot_immutable_witness :
    (1 : ℕ) ≠ 0 ∧
      modesSnapshotEps
          (mutateEps (modesInit (fun _ _ => 1) 0 [] 1).2 0 fun _ => 2)
          (modesInit (fun _ _ => (1 : ℝ)) 0 [] 1).1 =
        modesSnapshotEps (modesInit (fun _ _ => 1) 0 [] 1).2
          (modesInit (fun _ _ => (1 : ℝ)) 0 [] 1).1 :=
  ⟨one_ne_zero,
    (modes_snapshot_immutable (fun _ _ => 1) 0 [] 1 (fun _ => 2) one_ne_zero).1⟩

/-! ### `Grid.reshape` (grid.py) -/

theorem encode3_lt (s0 s1 s2 : ℕ) (c : Fin 3) (i : Fin s0) (j : Fin s1) (k : Fin s2) :
    (c : ℕ) * (s0 * s1 * s2) + ((i : ℕ) * s1 + (j : ℕ)) * s2 + (k : ℕ) <
      3 * (s0 * s1 * s2) := by
  have hc : (c : ℕ) + 1 ≤ 3 := c.isLt
  have hi : (i : ℕ) + 1 ≤ s0 := i.isLt
  have hj : (j : ℕ) + 1 ≤ s1 := j.isLt
  have hk : (k : ℕ) + 1 ≤ s2 := k.isLt
  have h1 : (i : ℕ) * s1 + (j : ℕ) + 1 ≤ s0 * s1 := by nlinarith
  have h2 : ((i : ℕ) * s1 + (j : ℕ) + 1) * s2 ≤ s0 * s1 * s2 :=
    Nat.mul_le_mul_right _ h1
  have h3 : (c : ℕ) * (s0 * s1 * s2) + s0 * s1 * s2 ≤ 3 * (s0 * s1 * s2) := by
    have := Nat.mul_le_mul_right (s0 * s1 * s2) (show (c : ℕ) + 1 ≤ 3 from hc)
    nlinarith
  nlinarith

/-- The flat-input branch of `Grid.reshape` (grid.py):
`np.stack([w.reshape(shape3) for w in np.split(v, 3)])`, a C-order (row
major) unflattening of a flat vector of size `3n` into shape
`(3, s0, s1, s2)`: component `c`, cell `(i, j, k)` reads flat entry
`c*n + (i*s1 + j)*s2 + k`. -/
def reshapeVec (s0 s1 s2 : ℕ) (v : Fin (3 * (s0 * s1 * s2)) → ℂ)
    (c : Fin 3) (i : Fin s0) (j : Fin s1) (k : Fin s2) : ℂ :=
  v ⟨(c : ℕ) * (s0 * s1 * s2) + ((i : ℕ) * s1 + (j : ℕ)) * s2 + (k : ℕ),
    encode3_lt s0 s1 s2 c i j k⟩

/-- The grid-shaped-input branch of `Grid.reshape` (grid.py): `v.flatten()`,
the C-order flattening of a `(3, s0, s1, s2)` array back to a flat vector of
size `3n`. -/
def flattenVec (s0 s1 s2 : ℕ) (a : Fin 3 → Fin s0 → Fin s1 → Fin s2 → ℂ)
    (t : Fin (3 * (s0 * s1 * s2))) : ℂ :=
  have hpos : 0 < 3 * (s0 * s1 * s2) := Nat.lt_of_le_of_lt (Nat.zero_le _) t.isLt
  have hn : 0 < s0 * s1 * s2 := by omega
  have hs0 : 0 < s0 := by
    rcases Nat.eq_zero_or_pos s0 with h | h
    · rw [h] at hn; simp at hn
    · exact h
  have hs1 : 0 < s1 := by
    rcases Nat.eq_zero_or_pos s1 with h | h
    · rw [h] at hn; simp at hn
    · exact h
  have hs2 : 0 < s2 := by
    rcases Nat.eq_zero_or_pos s2 with h | h
    · rw [h] at hn; simp at hn
    · exact h
  a ⟨(t : ℕ) / (s0 * s1 * s2), by
      rw [Nat.div_lt_iff_lt_mul hn]
      exact t.isLt⟩
    ⟨(t : ℕ) % (s0 * s1 * s2) / (s1 * s2), by
      rw [Nat.div_lt_iff_lt_mul (by positivity)]
      exact lt_of_lt_of_eq (Nat.mod_lt _ hn) (by ring)⟩
    ⟨(t : ℕ) % (s0 * s1 * s2) % (s1 * s2) / s2, by
      rw [Nat.div_lt_iff_lt_mul hs2]
      exact Nat.mod_lt _ (by positivity)⟩
    ⟨(t : ℕ) % (s0 * s1 * s2) % (s1 * s2) % s2, Nat.mod_lt _ hs2⟩

/-- **C10.** `Grid.reshape` is an involution at the public interface: on a
flat vector `v` of length `3n` it produces the `(3, *shape3)` C-order
array (`reshapeVec`), and applying `reshape` again (the `v.ndim != 1`
branch, i.e. `v.flatten()`) recovers `v` exactly. -/
theorem reshape_involution (s0 s1 s2 : ℕ) (v : Fin (3 * (s0 * s1 * s2)) → ℂ) :
    flattenVec s0 s1 s2 (reshapeVec s0 s1 s2 v) = v := by
  funext t
  rw [flattenVec, reshapeVec]
  congr 1
  apply Fin.ext
  simp only
  have e1 : s2 * ((t : ℕ) % (s0 * s1 * s2) % (s1 * s2) / s2) +
      (t : ℕ) % (s0 * s1 * s2) % (s1 * s2) % s2 =
      (t : ℕ) % (s0 * s1 * s2) % (s1 * s2) := Nat.div_add_mod _ _
  have e2 : (s1 * s2) * ((t : ℕ) % (s0 * s1 * s2) / (s1 * s2)) +
      (t : ℕ) % (s0 * s1 * s2) % (s1 * s2) =
      (t : ℕ) % (s0 * s1 * s2) := Nat.div_add_mod _ _
  have e3 : (s0 * s1 * s2) * ((t : ℕ) / (s0 * s1 * s2)) +
      (t : ℕ) % (s0 * s1 * s2) = (t : ℕ) := Nat.div_add_mod _ _
  calc (t : ℕ) / (s0 * s1 * s2) * (s0 * s1 * s2) +
        ((t : ℕ) % (s0 * s1 * s2) / (s1 * s2) * s1 +
          (t : ℕ) % (s0 * s1 * s2) % (s1 * s2) / s2) * s2 +
        (t : ℕ) % (s0 * s1 * s2) % (s1 * s2) % s2
      = (s0 * s1 * s2) * ((t : ℕ) / (s0 * s1 * s2)) +
        ((s1 * s2) * ((t : ℕ) % (s0 * s1 * s2) / (s1 * s2)) +
          (s2 * ((t : ℕ) % (s0 * s1 * s2) % (s1 * s2) / s2) +
            (t : ℕ) % (s0 * s1 * s2) % (s1 * s2) % s2)) := by ring
    _ = (t : ℕ) := by rw [e1, e2, e3]

end

end Simphox
